import Mathlib

/-!
Verification of the dense feed-forward layer of the silinapse library
(src/src/feedforward.rs), shallowly embedded over exact rationals.

The scalar type `F : Float` of the source is modelled by `ℚ`; every
index access `v[k]` that could panic in the source is modelled by an
`Option`-valued read (`getE`) or write (`setE`), so that a training or
compute call returns `none` exactly when the source would panic on an
out-of-range access.  The imperative loops of the source are modelled
by `List.foldl` over `List.range`, threading the mutated vectors as
explicit state.
-/

namespace Silinapse

/-- Modelled from the spec: the activation-function pair
`{value_fn, derivative_fn}` (the file defining `ActivationFunction` is
not part of src; only its two fields, used as `self.activation.value`
and `self.activation.derivative`, are relevant here). -/
structure ActivationFunction where
  value : ℚ → ℚ
  derivative : ℚ → ℚ

/-- The feedforward layer of feedforward.rs: input count, weight
matrix (row-major, `coeffs[j*inputs + i]` connects input `i` to output
`j`), biases, and the activation pair. -/
structure FeedforwardLayer where
  inputs : Nat
  coeffs : List ℚ
  biases : List ℚ
  activation : ActivationFunction

/-- Modelled from the spec: the perceptron (delta) rule carries only a
learning rate (its defining file is not part of src). -/
structure PerceptronRule where
  rate : ℚ

/-- Modelled from the spec: the gradient-descent rule carries only a
learning rate (its defining file is not part of src). -/
structure GradientDescent where
  rate : ℚ

/-- A checked read `v[k]`: `none` models an out-of-range panic. -/
def getE (l : List ℚ) (i : Nat) : Option ℚ :=
  l[i]?

/-- A checked write `v[k] = x`: `none` models an out-of-range panic. -/
def setE (l : List ℚ) (i : Nat) (v : ℚ) : Option (List ℚ) :=
  if i < l.length then some (l.set i v) else none

namespace FeedforwardLayer

/-- Constructor `new`: all weights and biases set to zero. -/
def new (inputs outputs : Nat) (activation : ActivationFunction) : FeedforwardLayer :=
  { inputs := inputs
    coeffs := List.replicate (inputs * outputs) 0
    biases := List.replicate outputs 0
    activation := activation }

/-- Constructor `new_from`: a single stateful generator fills the
weights first (row-major), then the biases; the generator's successive
return values are modelled as the stream `generator 0, generator 1, …`. -/
def new_from (inputs outputs : Nat) (activation : ActivationFunction)
    (generator : Nat → ℚ) : FeedforwardLayer :=
  { inputs := inputs
    coeffs := (List.range (inputs * outputs)).map generator
    biases := (List.range outputs).map (fun k => generator (inputs * outputs + k))
    activation := activation }

/-- Constructor `new_from_generators`: independent generators for the
weights and for the biases. -/
def new_from_generators (inputs outputs : Nat) (activation : ActivationFunction)
    (weight_generator bias_generator : Nat → ℚ) : FeedforwardLayer :=
  { inputs := inputs
    coeffs := (List.range (inputs * outputs)).map weight_generator
    biases := (List.range outputs).map bias_generator
    activation := activation }

/-- Constructor `new_from_values`: weights and biases supplied by the
caller, stored without validation. -/
def new_from_values (inputs outputs : Nat) (activation : ActivationFunction)
    (coefficients biases : List ℚ) : FeedforwardLayer :=
  { inputs := inputs
    coeffs := coefficients
    biases := biases
    activation := activation }

/-- The `input_size` accessor of the `Compute` impl. -/
def input_size (l : FeedforwardLayer) : Nat :=
  l.inputs

/-- The `output_size` accessor of the `Compute` impl. -/
def output_size (l : FeedforwardLayer) : Nat :=
  l.biases.length

end FeedforwardLayer

/-- One iteration of the inner loop shared by `compute` and the first
loop of `backprop_train`: `out[j] = out[j] + coeffs[j*inputs + i] * input[i]`. -/
def forwardInner (coeffs input : List ℚ) (inputs j : Nat)
    (acc : Option (List ℚ)) (i : Nat) : Option (List ℚ) := do
  let out ← acc
  let o ← getE out j
  let c ← getE coeffs (j * inputs + i)
  let x ← getE input i
  setE out j (o + c * x)

/-- The accumulation loop shared by `compute` and `backprop_train`,
starting from `out = biases.clone()`:
`for j in 0..biases.len() { for i in 0..min(inputs, input.len()) { out[j] = out[j] + coeffs[j*inputs+i]*input[i] } }`. -/
def rawOutputs (l : FeedforwardLayer) (input : List ℚ) : Option (List ℚ) :=
  (List.range l.biases.length).foldl
    (fun acc j =>
      (List.range (min l.inputs input.length)).foldl
        (forwardInner l.coeffs input l.inputs j) acc)
    (some l.biases)

/-- The `compute` method: accumulate the weighted sums into a clone of
the biases, then apply the activation value function to every entry. -/
def compute (l : FeedforwardLayer) (input : List ℚ) : Option (List ℚ) := do
  let out ← rawOutputs l input
  pure (out.map l.activation.value)

/-- One iteration of the inner loop of the perceptron-rule
`supervised_train`:
`coeffs[i + j*inputs] = coeffs[i + j*inputs] - rate * diff * input[i]`. -/
def trainPInner (rate diff : ℚ) (input : List ℚ) (inputs j : Nat)
    (acc : Option (List ℚ)) (i : Nat) : Option (List ℚ) := do
  let cs ← acc
  let c ← getE cs (i + j * inputs)
  let x ← getE input i
  setE cs (i + j * inputs) (c - rate * diff * x)

/-- One iteration of the outer loop of the perceptron-rule
`supervised_train`, over output index `j`: compute
`diff = out[j] - target.get(j).unwrap_or(0)`, update row `j` of the
weights, then `biases[j] = biases[j] - rate * diff`. -/
def trainPStep (rate : ℚ) (input target out : List ℚ) (inputs : Nat)
    (acc : Option (List ℚ × List ℚ)) (j : Nat) : Option (List ℚ × List ℚ) := do
  let p ← acc
  let o ← getE out j
  let diff := o - (target.getD j 0)
  let cs ← (List.range (min inputs input.length)).foldl
    (trainPInner rate diff input inputs j) (some p.1)
  let b ← getE p.2 j
  let bs ← setE p.2 j (b - rate * diff)
  pure (cs, bs)

/-- The `supervised_train` impl for `PerceptronRule`: run `compute`,
then apply the delta-rule update to every weight row and bias. -/
def supervised_train (l : FeedforwardLayer) (rule : PerceptronRule)
    (input target : List ℚ) : Option FeedforwardLayer := do
  let out ← compute l input
  let p ← (List.range l.biases.length).foldl
    (trainPStep rule.rate input target out l.inputs) (some (l.coeffs, l.biases))
  pure { l with coeffs := p.1, biases := p.2 }

/-- One iteration of the inner loop of `backprop_train`:
`returned[i] = returned[i] - coeffs[i + j*inputs]*deltas[j]` followed by
`coeffs[i + j*inputs] = coeffs[i + j*inputs] - rate * input.get(i).unwrap_or(0) * deltas[j] * (out[j] - tj)`,
threading the pair (returned, coeffs). -/
def backInner (rate d o tj : ℚ) (input : List ℚ) (inputs j : Nat)
    (acc : Option (List ℚ × List ℚ)) (i : Nat) : Option (List ℚ × List ℚ) := do
  let p ← acc
  let r ← getE p.1 i
  let c ← getE p.2 (i + j * inputs)
  let ret ← setE p.1 i (r - c * d)
  let cs ← setE p.2 (i + j * inputs)
    (c - rate * (input.getD i 0) * d * (o - tj))
  pure (ret, cs)

/-- One iteration of the outer loop of `backprop_train`, over output
index `j`: update `returned` and the weight row `j`, then
`biases[j] = biases[j] - rate * deltas[j] * (out[j] - target.get(j).unwrap_or(0))`,
threading the triple (returned, coeffs, biases). -/
def backStep (rate : ℚ) (input target out deltas : List ℚ) (inputs : Nat)
    (acc : Option (List ℚ × List ℚ × List ℚ)) (j : Nat) :
    Option (List ℚ × List ℚ × List ℚ) := do
  let p ← acc
  let o ← getE out j
  let d ← getE deltas j
  let q ← (List.range (min inputs input.length)).foldl
    (backInner rate d o (target.getD j 0) input inputs j) (some (p.1, p.2.1))
  let b ← getE p.2.2 j
  let bs ← setE p.2.2 j (b - rate * d * (o - target.getD j 0))
  pure (q.1, q.2, bs)

/-- The `backprop_train` impl for `GradientDescent`: recompute the
pre-activation sums (`raw`), take `deltas` as the derivative at `raw`
and `out` as the value at `raw`, initialize `returned` as a copy of the
input, then run the update loop; returns the updated layer together
with `returned`. -/
def backprop_train (l : FeedforwardLayer) (rule : GradientDescent)
    (input target : List ℚ) : Option (FeedforwardLayer × List ℚ) := do
  let raw ← rawOutputs l input
  let deltas := raw.map l.activation.derivative
  let out := raw.map l.activation.value
  let q ← (List.range l.biases.length).foldl
    (backStep rule.rate input target out deltas l.inputs)
    (some (input, l.coeffs, l.biases))
  pure ({ l with coeffs := q.2.1, biases := q.2.2 }, q.1)

/-- The `supervised_train` impl for `GradientDescent`: call
`backprop_train` and discard the returned error vector. -/
def supervised_train_gd (l : FeedforwardLayer) (rule : GradientDescent)
    (input target : List ℚ) : Option FeedforwardLayer := do
  let q ← backprop_train l rule input target
  pure q.1

/-- The pre-activation sum of the spec (§4.4 step 1 and glossary):
`biases[j] + Σ over i in 0..min(input_size, input.length) of
weights[j*input_size+i] * input[i]`.  Used only to state properties of
the source functions, never inside them. -/
def preActivation (l : FeedforwardLayer) (input : List ℚ) (j : Nat) : ℚ :=
  l.biases.getD j 0 +
    ∑ i ∈ Finset.range (min l.inputs input.length),
      l.coeffs.getD (j * l.inputs + i) 0 * input.getD i 0

/-- A concrete identity activation used as a test fixture. -/
def idAct : ActivationFunction :=
  { value := fun x => x, derivative := fun _ => 1 }

/-- Modelled from the spec: the step activation of the repository's
activation catalogue (not part of src): value `1` for a positive
pre-activation sum and `0` otherwise; its derivative is `0`
everywhere (it is never used by the delta rule). -/
def stepAct : ActivationFunction :=
  { value := fun x => if 0 < x then 1 else 0, derivative := fun _ => 0 }

/-- One round of the perceptron-rule test of feedforward.rs: train on
`[1,1,1,1] → [0,0]` then on `[1,-1,1,-1] → [1,1]` at rate `1/2`. -/
def c8Round (l : FeedforwardLayer) : Option FeedforwardLayer := do
  let l1 ← supervised_train l { rate := 1/2 } [1, 1, 1, 1] [0, 0]
  supervised_train l1 { rate := 1/2 } [1, -1, 1, -1] [1, 1]

/-- The layer after the three training rounds of the `perceptron_rule`
test, starting from the zero-initialized 4-input/2-output step layer. -/
def c8Final : Option FeedforwardLayer := do
  let l1 ← c8Round (FeedforwardLayer.new 4 2 stepAct)
  let l2 ← c8Round l1
  c8Round l2


/-- A concrete 2-input/2-output layer with explicit weights and biases,
used as a test fixture for witnesses. -/
def wLayer : FeedforwardLayer :=
  FeedforwardLayer.new_from_values 2 2 idAct [1, 2, 3, 4] [5, 6]

lemma getE_eq_some {l : List ℚ} {i : Nat} (h : i < l.length) :
    getE l i = some (l.getD i 0) := by
  rw [getE, List.getElem?_eq_getElem h, List.getD_eq_getElem l 0 h]

lemma setE_eq_some {l : List ℚ} {i : Nat} (h : i < l.length) (v : ℚ) :
    setE l i v = some (l.set i v) := by
  simp [setE, h]

lemma getD_set_self {l : List ℚ} {i : Nat} (h : i < l.length) (v : ℚ) :
    (l.set i v).getD i 0 = v := by
  simp [List.getD_eq_getElem?_getD, List.getElem?_set_self, h]

lemma getD_set_ne {l : List ℚ} {i k : Nat} (h : i ≠ k) (v : ℚ) :
    (l.set i v).getD k 0 = l.getD k 0 := by
  simp [List.getD_eq_getElem?_getD, List.getElem?_set_ne h]

lemma getD_map_lt {f : ℚ → ℚ} {l : List ℚ} {j : Nat} (h : j < l.length) :
    (l.map f).getD j 0 = f (l.getD j 0) := by
  rw [List.getD_eq_getElem _ 0 (by simpa using h), List.getElem_map,
    List.getD_eq_getElem l 0 h]

lemma foldl_range_succ {α : Type} (f : Option α → Nat → Option α)
    (init : Option α) (n : Nat) :
    (List.range (n + 1)).foldl f init = f ((List.range n).foldl f init) n := by
  rw [List.range_succ, List.foldl_append]
  rfl

lemma rowIdx_lt {A n i j : Nat} (hi : i < A) (hj : j < n) : j * A + i < A * n := by
  calc j * A + i < j * A + A := by omega
    _ = (j + 1) * A := by ring
    _ ≤ n * A := Nat.mul_le_mul_right A hj
    _ = A * n := Nat.mul_comm n A

lemma rowIdx_inj {A i j k m : Nat} (hi : i < A) (hk : k < A)
    (h : i + j * A = k + m * A) : i = k ∧ j = m := by
  have hA : 0 < A := lt_of_le_of_lt (Nat.zero_le i) hi
  have h1 : (i + j * A) % A = i := by
    rw [Nat.add_mul_mod_self_right]; exact Nat.mod_eq_of_lt hi
  have h2 : (k + m * A) % A = k := by
    rw [Nat.add_mul_mod_self_right]; exact Nat.mod_eq_of_lt hk
  have h3 : (i + j * A) / A = j := by
    rw [Nat.add_mul_div_right _ _ hA, Nat.div_eq_of_lt hi]
    omega
  have h4 : (k + m * A) / A = m := by
    rw [Nat.add_mul_div_right _ _ hA, Nat.div_eq_of_lt hk]
    omega
  constructor
  · rw [← h1, ← h2, h]
  · rw [← h3, ← h4, h]

lemma forwardInner_fold (coeffs input : List ℚ) (A j : Nat) (out : List ℚ)
    (m : Nat) (hm : m ≤ input.length) (hj : j < out.length)
    (hc : ∀ i < m, j * A + i < coeffs.length) :
    ∃ out2,
      (List.range m).foldl (forwardInner coeffs input A j) (some out) = some out2 ∧
      out2.length = out.length ∧
      out2.getD j 0 = out.getD j 0 +
        ∑ i ∈ Finset.range m, coeffs.getD (j * A + i) 0 * input.getD i 0 ∧
      ∀ k, k ≠ j → out2.getD k 0 = out.getD k 0 := by
  induction m with
  | zero =>
    exact ⟨out, rfl, rfl, by simp, fun k _ => rfl⟩
  | succ m ih =>
    obtain ⟨o1, h1, hlen, hget, hother⟩ := ih (le_trans (Nat.le_succ m) hm)
      (fun i hi => hc i (Nat.lt_succ_of_lt hi))
    have hj1 : j < o1.length := hlen ▸ hj
    have hcm : j * A + m < coeffs.length := hc m (Nat.lt_succ_self m)
    have hxm : m < input.length := lt_of_lt_of_le (Nat.lt_succ_self m) hm
    refine ⟨o1.set j (o1.getD j 0 + coeffs.getD (j * A + m) 0 * input.getD m 0),
      ?_, ?_, ?_, ?_⟩
    · rw [foldl_range_succ, h1]
      simp [forwardInner, getE_eq_some hj1, getE_eq_some hcm, getE_eq_some hxm,
        setE_eq_some hj1]
    · simp [List.length_set, hlen]
    · rw [getD_set_self hj1, hget, Finset.sum_range_succ]
      ring
    · intro k hk
      rw [getD_set_ne (Ne.symm hk), hother k hk]

lemma rawOutputs_fold (coeffs input bs : List ℚ) (A : Nat)
    (hc : ∀ j < bs.length, ∀ i < min A input.length, j * A + i < coeffs.length)
    (t : Nat) (ht : t ≤ bs.length) :
    ∃ out2,
      (List.range t).foldl
        (fun acc j => (List.range (min A input.length)).foldl
          (forwardInner coeffs input A j) acc) (some bs) = some out2 ∧
      out2.length = bs.length ∧
      (∀ j < t, out2.getD j 0 = bs.getD j 0 +
        ∑ i ∈ Finset.range (min A input.length),
          coeffs.getD (j * A + i) 0 * input.getD i 0) ∧
      (∀ j, t ≤ j → out2.getD j 0 = bs.getD j 0) := by
  induction t with
  | zero =>
    exact ⟨bs, rfl, rfl, fun j hj => absurd hj (Nat.not_lt_zero j), fun j _ => rfl⟩
  | succ t ih =>
    obtain ⟨o1, h1, hlen, hdone, hrest⟩ := ih (le_trans (Nat.le_succ t) ht)
    have htlt : t < bs.length := ht
    obtain ⟨o2, h2, hlen2, hget2, hother2⟩ :=
      forwardInner_fold coeffs input A t o1 (min A input.length)
        (min_le_right A input.length) (by omega)
        (fun i hi => hc t htlt i hi)
    refine ⟨o2, ?_, by omega, ?_, ?_⟩
    · rw [foldl_range_succ, h1, h2]
    · intro j hj
      rcases Nat.lt_succ_iff_lt_or_eq.mp hj with hj' | hj'
      · rw [hother2 j (by omega), hdone j hj']
      · subst hj'
        rw [hget2, hrest j le_rfl]
    · intro j hj
      rw [hother2 j (by omega), hrest j (by omega)]

lemma rawOutputs_spec (l : FeedforwardLayer) (input : List ℚ)
    (hw : l.coeffs.length = l.inputs * l.biases.length) :
    ∃ out, rawOutputs l input = some out ∧ out.length = l.biases.length ∧
      ∀ j < l.biases.length, out.getD j 0 = l.biases.getD j 0 +
        ∑ i ∈ Finset.range (min l.inputs input.length),
          l.coeffs.getD (j * l.inputs + i) 0 * input.getD i 0 := by
  obtain ⟨out, h1, h2, h3, _⟩ := rawOutputs_fold l.coeffs input l.biases l.inputs
    (fun j hj i hi => by
      rw [hw]
      exact rowIdx_lt (lt_of_lt_of_le hi (min_le_left _ _)) hj)
    l.biases.length le_rfl
  exact ⟨out, h1, h2, h3⟩

lemma compute_spec (l : FeedforwardLayer) (input : List ℚ)
    (hw : l.coeffs.length = l.inputs * l.biases.length) :
    ∃ out, compute l input = some out ∧ out.length = l.biases.length ∧
      ∀ j < l.biases.length, out.getD j 0 =
        l.activation.value (l.biases.getD j 0 +
          ∑ i ∈ Finset.range (min l.inputs input.length),
            l.coeffs.getD (j * l.inputs + i) 0 * input.getD i 0) := by
  obtain ⟨raw, h1, h2, h3⟩ := rawOutputs_spec l input hw
  refine ⟨raw.map l.activation.value, ?_, by simp [h2], ?_⟩
  · simp [compute, h1]
  · intro j hj
    rw [getD_map_lt (h2 ▸ hj), h3 j hj]

lemma trainPInner_fold (rate diff : ℚ) (input cs : List ℚ) (A j : Nat)
    (m : Nat) (hm : m ≤ input.length)
    (hc : ∀ i < m, i + j * A < cs.length) :
    ∃ cs2,
      (List.range m).foldl (trainPInner rate diff input A j) (some cs) = some cs2 ∧
      cs2.length = cs.length ∧
      (∀ i < m, cs2.getD (i + j * A) 0 =
        cs.getD (i + j * A) 0 - rate * diff * input.getD i 0) ∧
      (∀ k, (∀ i < m, k ≠ i + j * A) → cs2.getD k 0 = cs.getD k 0) := by
  induction m with
  | zero =>
    exact ⟨cs, rfl, rfl, fun i hi => absurd hi (Nat.not_lt_zero i), fun k _ => rfl⟩
  | succ m ih =>
    obtain ⟨c1, h1, hlen, hupd, hother⟩ := ih (le_trans (Nat.le_succ m) hm)
      (fun i hi => hc i (Nat.lt_succ_of_lt hi))
    have hcm : m + j * A < c1.length := by
      rw [hlen]; exact hc m (Nat.lt_succ_self m)
    have hxm : m < input.length := lt_of_lt_of_le (Nat.lt_succ_self m) hm
    have hval : c1.getD (m + j * A) 0 = cs.getD (m + j * A) 0 :=
      hother (m + j * A) (fun i hi h => by omega)
    refine ⟨c1.set (m + j * A)
      (c1.getD (m + j * A) 0 - rate * diff * input.getD m 0), ?_, ?_, ?_, ?_⟩
    · rw [foldl_range_succ, h1]
      simp [trainPInner, getE_eq_some hcm, getE_eq_some hxm, setE_eq_some hcm]
    · simp [List.length_set, hlen]
    · intro i hi
      rcases Nat.lt_succ_iff_lt_or_eq.mp hi with hi' | hi'
      · rw [getD_set_ne (by omega), hupd i hi']
      · subst hi'
        rw [getD_set_self hcm, hval]
    · intro k hk
      rw [getD_set_ne (Ne.symm (hk m (Nat.lt_succ_self m))),
        hother k (fun i hi => hk i (Nat.lt_succ_of_lt hi))]

lemma trainP_fold (rate : ℚ) (input target out cs bs : List ℚ) (A : Nat)
    (hout : bs.length ≤ out.length)
    (hc : ∀ j < bs.length, ∀ i < min A input.length, i + j * A < cs.length)
    (t : Nat) (ht : t ≤ bs.length) :
    ∃ cs2 bs2,
      (List.range t).foldl (trainPStep rate input target out A)
        (some (cs, bs)) = some (cs2, bs2) ∧
      cs2.length = cs.length ∧ bs2.length = bs.length ∧
      (∀ j < t, ∀ i < min A input.length,
        cs2.getD (i + j * A) 0 = cs.getD (i + j * A) 0 -
          rate * (out.getD j 0 - target.getD j 0) * input.getD i 0) ∧
      (∀ k, (∀ j < t, ∀ i < min A input.length, k ≠ i + j * A) →
        cs2.getD k 0 = cs.getD k 0) ∧
      (∀ j < t, bs2.getD j 0 = bs.getD j 0 -
        rate * (out.getD j 0 - target.getD j 0)) ∧
      (∀ j, t ≤ j → bs2.getD j 0 = bs.getD j 0) := by
  induction t with
  | zero =>
    exact ⟨cs, bs, rfl, rfl, rfl,
      fun j hj => absurd hj (Nat.not_lt_zero j),
      fun k _ => rfl,
      fun j hj => absurd hj (Nat.not_lt_zero j),
      fun j _ => rfl⟩
  | succ t ih =>
    obtain ⟨c1, b1, h1, hclen, hblen, hcupd, hcother, hbupd, hbother⟩ :=
      ih (le_trans (Nat.le_succ t) ht)
    have htb : t < bs.length := ht
    have htout : t < out.length := lt_of_lt_of_le htb hout
    have htb1 : t < b1.length := by omega
    obtain ⟨c2, h2, hclen2, hcupd2, hcother2⟩ :=
      trainPInner_fold rate (out.getD t 0 - target.getD t 0) input c1 A t
        (min A input.length) (min_le_right A input.length)
        (fun i hi => by rw [hclen]; exact hc t htb i hi)
    have hrowne : ∀ i < min A input.length, ∀ j < t, ∀ i2 < min A input.length,
        i + t * A ≠ i2 + j * A := by
      intro i hi j hj i2 hi2 h
      have := rowIdx_inj (lt_of_lt_of_le hi (min_le_left A input.length))
        (lt_of_lt_of_le hi2 (min_le_left A input.length)) h
      omega
    refine ⟨c2, b1.set t (b1.getD t 0 - rate * (out.getD t 0 - target.getD t 0)),
      ?_, by omega, by simp [List.length_set, hblen], ?_, ?_, ?_, ?_⟩
    · rw [foldl_range_succ, h1]
      simp only [trainPStep, Option.bind_eq_bind, Option.some_bind,
        getE_eq_some htout, getE_eq_some htb1, setE_eq_some htb1, h2]
      rfl
    · intro j hj i hi
      rcases Nat.lt_succ_iff_lt_or_eq.mp hj with hj' | hj'
      · rw [hcother2 (i + j * A)
          (fun i2 hi2 h => (hrowne i2 hi2 j hj' i hi) h.symm),
          hcupd j hj' i hi]
      · subst hj'
        rw [hcupd2 i hi,
          hcother (i + j * A) (fun j2 hj2 i2 hi2 => hrowne i hi j2 hj2 i2 hi2)]
    · intro k hk
      rw [hcother2 k (fun i hi => hk t (Nat.lt_succ_self t) i hi),
        hcother k (fun j hj i hi => hk j (Nat.lt_succ_of_lt hj) i hi)]
    · intro j hj
      rcases Nat.lt_succ_iff_lt_or_eq.mp hj with hj' | hj'
      · rw [getD_set_ne (by omega), hbupd j hj']
      · subst hj'
        rw [getD_set_self htb1, hbother j le_rfl]
    · intro j hj
      rw [getD_set_ne (by omega), hbother j (by omega)]

lemma supervised_train_spec (l : FeedforwardLayer) (rule : PerceptronRule)
    (input target : List ℚ)
    (hw : l.coeffs.length = l.inputs * l.biases.length) :
    ∃ out l2, compute l input = some out ∧
      supervised_train l rule input target = some l2 ∧
      l2.inputs = l.inputs ∧ l2.activation = l.activation ∧
      l2.coeffs.length = l.coeffs.length ∧ l2.biases.length = l.biases.length ∧
      (∀ j < l.biases.length, ∀ i < min l.inputs input.length,
        l2.coeffs.getD (i + j * l.inputs) 0 = l.coeffs.getD (i + j * l.inputs) 0 -
          rule.rate * (out.getD j 0 - target.getD j 0) * input.getD i 0) ∧
      (∀ k, (∀ j < l.biases.length, ∀ i < min l.inputs input.length,
        k ≠ i + j * l.inputs) → l2.coeffs.getD k 0 = l.coeffs.getD k 0) ∧
      (∀ j < l.biases.length, l2.biases.getD j 0 = l.biases.getD j 0 -
        rule.rate * (out.getD j 0 - target.getD j 0)) ∧
      (∀ j, l.biases.length ≤ j → l2.biases.getD j 0 = l.biases.getD j 0) := by
  obtain ⟨out, hcomp, houtlen, _⟩ := compute_spec l input hw
  obtain ⟨cs2, bs2, hfold, hclen, hblen, hcupd, hcother, hbupd, hbother⟩ :=
    trainP_fold rule.rate input target out l.coeffs l.biases l.inputs
      (le_of_eq houtlen.symm)
      (fun j hj i hi => by
        rw [hw]
        have h1 : i + j * l.inputs = j * l.inputs + i := Nat.add_comm ..
        rw [h1]
        exact rowIdx_lt (lt_of_lt_of_le hi (min_le_left _ _)) hj)
      l.biases.length le_rfl
  refine ⟨out, { l with coeffs := cs2, biases := bs2 }, hcomp, ?_, rfl, rfl,
    hclen, hblen, hcupd, hcother, hbupd, hbother⟩
  simp only [supervised_train, Option.bind_eq_bind, hcomp, Option.some_bind,
    hfold]
  rfl

lemma backInner_fold (rate d o tj : ℚ) (input : List ℚ) (A j : Nat)
    (ret cs : List ℚ) (m : Nat) (hm : m ≤ input.length) (hr : m ≤ ret.length)
    (hc : ∀ i < m, i + j * A < cs.length) :
    ∃ ret2 cs2,
      (List.range m).foldl (backInner rate d o tj input A j)
        (some (ret, cs)) = some (ret2, cs2) ∧
      ret2.length = ret.length ∧ cs2.length = cs.length ∧
      (∀ i < m, ret2.getD i 0 = ret.getD i 0 - cs.getD (i + j * A) 0 * d) ∧
      (∀ k, m ≤ k → ret2.getD k 0 = ret.getD k 0) ∧
      (∀ i < m, cs2.getD (i + j * A) 0 = cs.getD (i + j * A) 0 -
        rate * input.getD i 0 * d * (o - tj)) ∧
      (∀ k, (∀ i < m, k ≠ i + j * A) → cs2.getD k 0 = cs.getD k 0) := by
  induction m with
  | zero =>
    exact ⟨ret, cs, rfl, rfl, rfl,
      fun i hi => absurd hi (Nat.not_lt_zero i),
      fun k _ => rfl,
      fun i hi => absurd hi (Nat.not_lt_zero i),
      fun k _ => rfl⟩
  | succ m ih =>
    obtain ⟨r1, c1, h1, hrlen, hclen, hrupd, hrother, hcupd, hcother⟩ :=
      ih (le_trans (Nat.le_succ m) hm) (le_trans (Nat.le_succ m) hr)
        (fun i hi => hc i (Nat.lt_succ_of_lt hi))
    have hrm : m < r1.length := by omega
    have hcm : m + j * A < c1.length := by
      rw [hclen]; exact hc m (Nat.lt_succ_self m)
    have hrval : r1.getD m 0 = ret.getD m 0 := hrother m le_rfl
    have hcval : c1.getD (m + j * A) 0 = cs.getD (m + j * A) 0 :=
      hcother (m + j * A) (fun i hi h => by omega)
    refine ⟨r1.set m (r1.getD m 0 - c1.getD (m + j * A) 0 * d),
      c1.set (m + j * A)
        (c1.getD (m + j * A) 0 - rate * input.getD m 0 * d * (o - tj)),
      ?_, ?_, ?_, ?_, ?_, ?_, ?_⟩
    · rw [foldl_range_succ, h1]
      simp only [backInner, Option.bind_eq_bind, Option.some_bind,
        getE_eq_some hrm, getE_eq_some hcm, setE_eq_some hrm, setE_eq_some hcm]
      rfl
    · simp [List.length_set, hrlen]
    · simp [List.length_set, hclen]
    · intro i hi
      rcases Nat.lt_succ_iff_lt_or_eq.mp hi with hi' | hi'
      · rw [getD_set_ne (by omega), hrupd i hi']
      · subst hi'
        rw [getD_set_self hrm, hrval, hcval]
    · intro k hk
      rw [getD_set_ne (by omega), hrother k (by omega)]
    · intro i hi
      rcases Nat.lt_succ_iff_lt_or_eq.mp hi with hi' | hi'
      · rw [getD_set_ne (by omega), hcupd i hi']
      · subst hi'
        rw [getD_set_self hcm, hcval]
    · intro k hk
      rw [getD_set_ne (Ne.symm (hk m (Nat.lt_succ_self m))),
        hcother k (fun i hi => hk i (Nat.lt_succ_of_lt hi))]

lemma backprop_fold (rate : ℚ) (input target out deltas cs bs : List ℚ)
    (A : Nat) (hout : bs.length ≤ out.length) (hdel : bs.length ≤ deltas.length)
    (hc : ∀ j < bs.length, ∀ i < min A input.length, i + j * A < cs.length)
    (t : Nat) (ht : t ≤ bs.length) :
    ∃ ret2 cs2 bs2,
      (List.range t).foldl (backStep rate input target out deltas A)
        (some (input, cs, bs)) = some (ret2, cs2, bs2) ∧
      ret2.length = input.length ∧ cs2.length = cs.length ∧
      bs2.length = bs.length ∧
      (∀ i < min A input.length, ret2.getD i 0 = input.getD i 0 -
        ∑ j ∈ Finset.range t, cs.getD (i + j * A) 0 * deltas.getD j 0) ∧
      (∀ k, min A input.length ≤ k → ret2.getD k 0 = input.getD k 0) ∧
      (∀ j < t, ∀ i < min A input.length,
        cs2.getD (i + j * A) 0 = cs.getD (i + j * A) 0 -
          rate * input.getD i 0 * deltas.getD j 0 *
            (out.getD j 0 - target.getD j 0)) ∧
      (∀ k, (∀ j < t, ∀ i < min A input.length, k ≠ i + j * A) →
        cs2.getD k 0 = cs.getD k 0) ∧
      (∀ j < t, bs2.getD j 0 = bs.getD j 0 -
        rate * deltas.getD j 0 * (out.getD j 0 - target.getD j 0)) ∧
      (∀ j, t ≤ j → bs2.getD j 0 = bs.getD j 0) := by
  induction t with
  | zero =>
    exact ⟨input, cs, bs, rfl, rfl, rfl, rfl,
      fun i _ => by simp,
      fun k _ => rfl,
      fun j hj => absurd hj (Nat.not_lt_zero j),
      fun k _ => rfl,
      fun j hj => absurd hj (Nat.not_lt_zero j),
      fun j _ => rfl⟩
  | succ t ih =>
    obtain ⟨r1, c1, b1, h1, hrlen, hclen, hblen, hrupd, hrother, hcupd,
      hcother, hbupd, hbother⟩ := ih (le_trans (Nat.le_succ t) ht)
    have htb : t < bs.length := ht
    have htout : t < out.length := lt_of_lt_of_le htb hout
    have htdel : t < deltas.length := lt_of_lt_of_le htb hdel
    have htb1 : t < b1.length := by omega
    obtain ⟨r2, c2, h2, hrlen2, hclen2, hrupd2, hrother2, hcupd2, hcother2⟩ :=
      backInner_fold rate (deltas.getD t 0) (out.getD t 0) (target.getD t 0)
        input A t r1 c1 (min A input.length) (min_le_right A input.length)
        (by omega) (fun i hi => by rw [hclen]; exact hc t htb i hi)
    have hrowne : ∀ i < min A input.length, ∀ j < t, ∀ i2 < min A input.length,
        i + t * A ≠ i2 + j * A := by
      intro i hi j hj i2 hi2 h
      have := rowIdx_inj (lt_of_lt_of_le hi (min_le_left A input.length))
        (lt_of_lt_of_le hi2 (min_le_left A input.length)) h
      omega
    refine ⟨r2, c2,
      b1.set t (b1.getD t 0 - rate * deltas.getD t 0 *
        (out.getD t 0 - target.getD t 0)),
      ?_, by omega, by omega, by simp [List.length_set, hblen],
      ?_, ?_, ?_, ?_, ?_, ?_⟩
    · rw [foldl_range_succ, h1]
      simp only [backStep, Option.bind_eq_bind, Option.some_bind,
        getE_eq_some htout, getE_eq_some htdel, getE_eq_some htb1,
        setE_eq_some htb1, h2]
      rfl
    · intro i hi
      rw [hrupd2 i hi, hrupd i hi, Finset.sum_range_succ,
        hcother (i + t * A) (fun j2 hj2 i2 hi2 => hrowne i hi j2 hj2 i2 hi2)]
      ring
    · intro k hk
      rw [hrother2 k hk, hrother k hk]
    · intro j hj i hi
      rcases Nat.lt_succ_iff_lt_or_eq.mp hj with hj' | hj'
      · rw [hcother2 (i + j * A)
          (fun i2 hi2 h => (hrowne i2 hi2 j hj' i hi) h.symm),
          hcupd j hj' i hi]
      · subst hj'
        rw [hcupd2 i hi,
          hcother (i + j * A) (fun j2 hj2 i2 hi2 => hrowne i hi j2 hj2 i2 hi2)]
    · intro k hk
      rw [hcother2 k (fun i hi => hk t (Nat.lt_succ_self t) i hi),
        hcother k (fun j hj i hi => hk j (Nat.lt_succ_of_lt hj) i hi)]
    · intro j hj
      rcases Nat.lt_succ_iff_lt_or_eq.mp hj with hj' | hj'
      · rw [getD_set_ne (by omega), hbupd j hj']
      · subst hj'
        rw [getD_set_self htb1, hbother j le_rfl]
    · intro j hj
      rw [getD_set_ne (by omega), hbother j (by omega)]

lemma backprop_train_spec (l : FeedforwardLayer) (rule : GradientDescent)
    (input target : List ℚ)
    (hw : l.coeffs.length = l.inputs * l.biases.length) :
    ∃ l2 ret, backprop_train l rule input target = some (l2, ret) ∧
      l2.inputs = l.inputs ∧ l2.activation = l.activation ∧
      l2.coeffs.length = l.coeffs.length ∧ l2.biases.length = l.biases.length ∧
      ret.length = input.length ∧
      (∀ i < min l.inputs input.length, ret.getD i 0 = input.getD i 0 -
        ∑ j ∈ Finset.range l.biases.length,
          l.coeffs.getD (i + j * l.inputs) 0 *
            l.activation.derivative (preActivation l input j)) ∧
      (∀ k, min l.inputs input.length ≤ k → ret.getD k 0 = input.getD k 0) ∧
      (∀ j < l.biases.length, ∀ i < min l.inputs input.length,
        l2.coeffs.getD (i + j * l.inputs) 0 =
          l.coeffs.getD (i + j * l.inputs) 0 -
          rule.rate * input.getD i 0 *
            l.activation.derivative (preActivation l input j) *
            (l.activation.value (preActivation l input j) - target.getD j 0)) ∧
      (∀ k, (∀ j < l.biases.length, ∀ i < min l.inputs input.length,
        k ≠ i + j * l.inputs) → l2.coeffs.getD k 0 = l.coeffs.getD k 0) ∧
      (∀ j < l.biases.length, l2.biases.getD j 0 = l.biases.getD j 0 -
        rule.rate * l.activation.derivative (preActivation l input j) *
          (l.activation.value (preActivation l input j) - target.getD j 0)) ∧
      (∀ j, l.biases.length ≤ j → l2.biases.getD j 0 = l.biases.getD j 0) := by
  obtain ⟨raw, hraw, hrawlen, hrawget⟩ := rawOutputs_spec l input hw
  have hdget : ∀ j < l.biases.length,
      (raw.map l.activation.derivative).getD j 0 =
        l.activation.derivative (preActivation l input j) := by
    intro j hj
    rw [getD_map_lt (hrawlen ▸ hj), hrawget j hj]
    rfl
  have hoget : ∀ j < l.biases.length,
      (raw.map l.activation.value).getD j 0 =
        l.activation.value (preActivation l input j) := by
    intro j hj
    rw [getD_map_lt (hrawlen ▸ hj), hrawget j hj]
    rfl
  obtain ⟨ret2, cs2, bs2, hfold, hretlen, hclen, hblen, hrupd, hrother,
    hcupd, hcother, hbupd, hbother⟩ :=
    backprop_fold rule.rate input target (raw.map l.activation.value)
      (raw.map l.activation.derivative) l.coeffs l.biases l.inputs
      (by simp [hrawlen]) (by simp [hrawlen])
      (fun j hj i hi => by
        rw [hw]
        have h1 : i + j * l.inputs = j * l.inputs + i := Nat.add_comm ..
        rw [h1]
        exact rowIdx_lt (lt_of_lt_of_le hi (min_le_left _ _)) hj)
      l.biases.length le_rfl
  refine ⟨{ l with coeffs := cs2, biases := bs2 }, ret2, ?_, rfl, rfl,
    hclen, hblen, hretlen, ?_, hrother, ?_, hcother, ?_, hbother⟩
  · simp only [backprop_train, Option.bind_eq_bind, hraw, Option.some_bind,
      hfold]
    rfl
  · intro i hi
    rw [hrupd i hi]
    congr 1
    refine Finset.sum_congr rfl (fun j hj => ?_)
    rw [hdget j (Finset.mem_range.mp hj)]
  · intro j hj i hi
    rw [hcupd j hj i hi, hdget j hj, hoget j hj]
  · intro j hj
    rw [hbupd j hj, hdget j hj, hoget j hj]

/-- C1: For every layer satisfying the length invariants and every input
sequence, `compute input` returns a sequence of length `output_size`
whose j-th component equals the activation value function applied to
`biases[j]` plus the sum over `i in 0..min(input_size, input.length)` of
`weights[j*input_size+i] * input[i]`; inputs shorter than `input_size`
contribute only their available components and excess input components
are ignored. -/
theorem compute_matches_spec (l : FeedforwardLayer) (input : List ℚ)
    (hw : l.coeffs.length = l.inputs * l.biases.length) :
    ∃ out, compute l input = some out ∧ out.length = l.output_size ∧
      ∀ j < out.length, out.getD j 0 =
        l.activation.value (l.biases.getD j 0 +
          ∑ i ∈ Finset.range (min l.inputs input.length),
            l.coeffs.getD (j * l.inputs + i) 0 * input.getD i 0) := by
  obtain ⟨out, h1, h2, h3⟩ := compute_spec l input hw
  exact ⟨out, h1, h2, fun j hj => h3 j (h2 ▸ hj)⟩

/-- Witness for C1 at a concrete layer and an input longer than
`input_size`. -/
theorem compute_matches_spec_witness :
    wLayer.coeffs.length = wLayer.inputs * wLayer.biases.length ∧
    (∃ out, compute wLayer [10, 20, 30] = some out ∧
      out.length = wLayer.output_size ∧
      ∀ j < out.length, out.getD j 0 =
        wLayer.activation.value (wLayer.biases.getD j 0 +
          ∑ i ∈ Finset.range (min wLayer.inputs ([10, 20, 30] : List ℚ).length),
            wLayer.coeffs.getD (j * wLayer.inputs + i) 0 *
              ([10, 20, 30] : List ℚ).getD i 0)) :=
  ⟨rfl, compute_matches_spec wLayer [10, 20, 30] rfl⟩

/-- C2: For every layer satisfying the length invariants,
`backprop_train rule input target` returns a vector of length
`input.length` whose i-th component, for `i` in
`0..min(input_size, input.length)`, equals `input[i]` minus the sum over
all outputs `j` of `weights[i+j*input_size] * deltas[j]`, where the
weights used are the layer's weights as they were before any update
performed by this same call, and `deltas[j]` is the activation
derivative at the pre-activation sum for output `j`. -/
theorem backprop_returned_error_spec (l : FeedforwardLayer)
    (rule : GradientDescent) (input target : List ℚ)
    (hw : l.coeffs.length = l.inputs * l.biases.length) :
    ∃ l2 ret, backprop_train l rule input target = some (l2, ret) ∧
      ret.length = input.length ∧
      ∀ i < min l.inputs input.length, ret.getD i 0 = input.getD i 0 -
        ∑ j ∈ Finset.range l.output_size,
          l.coeffs.getD (i + j * l.inputs) 0 *
            l.activation.derivative (preActivation l input j) := by
  obtain ⟨l2, ret, h1, _, _, _, _, hlen, hrupd, _⟩ :=
    backprop_train_spec l rule input target hw
  exact ⟨l2, ret, h1, hlen, hrupd⟩

/-- Witness for C2 at a concrete layer and a target shorter than the
output count. -/
theorem backprop_returned_error_spec_witness :
    wLayer.coeffs.length = wLayer.inputs * wLayer.biases.length ∧
    (∃ l2 ret,
      backprop_train wLayer { rate := 1/2 } [1, 2] [0] = some (l2, ret) ∧
      ret.length = ([1, 2] : List ℚ).length ∧
      ∀ i < min wLayer.inputs ([1, 2] : List ℚ).length,
        ret.getD i 0 = ([1, 2] : List ℚ).getD i 0 -
          ∑ j ∈ Finset.range wLayer.output_size,
            wLayer.coeffs.getD (i + j * wLayer.inputs) 0 *
              wLayer.activation.derivative
                (preActivation wLayer [1, 2] j)) :=
  ⟨rfl, backprop_returned_error_spec wLayer { rate := 1/2 } [1, 2] [0] rfl⟩

/-- C3: In `backprop_train rule input target`, with `raw[j]` the
pre-activation sum and `out[j] = value_fn(raw[j])`, every updated weight
satisfies `weights2[i+j*input_size] = weights[i+j*input_size] -
rate * input[i] * derivative_fn(raw[j]) * (out[j] - target[j])` for
`(i, j)` with `i < min(input_size, input.length)` and `j < output_size`,
every updated bias satisfies `biases2[j] = biases[j] -
rate * derivative_fn(raw[j]) * (out[j] - target[j])`, missing target
components are treated as zero, the derivative is evaluated at the
pre-activation value, and all other weights are unchanged. -/
theorem backprop_update_matches_spec (l : FeedforwardLayer)
    (rule : GradientDescent) (input target : List ℚ)
    (hw : l.coeffs.length = l.inputs * l.biases.length) :
    ∃ l2 ret, backprop_train l rule input target = some (l2, ret) ∧
      (∀ j < l.output_size, ∀ i < min l.inputs input.length,
        l2.coeffs.getD (i + j * l.inputs) 0 =
          l.coeffs.getD (i + j * l.inputs) 0 -
          rule.rate * input.getD i 0 *
            l.activation.derivative (preActivation l input j) *
            (l.activation.value (preActivation l input j) -
              target.getD j 0)) ∧
      (∀ j < l.output_size, l2.biases.getD j 0 = l.biases.getD j 0 -
        rule.rate * l.activation.derivative (preActivation l input j) *
          (l.activation.value (preActivation l input j) -
            target.getD j 0)) ∧
      (∀ k, (∀ j < l.output_size, ∀ i < min l.inputs input.length,
        k ≠ i + j * l.inputs) → l2.coeffs.getD k 0 = l.coeffs.getD k 0) := by
  obtain ⟨l2, ret, h1, _, _, _, _, _, _, _, hcupd, hcother, hbupd, _⟩ :=
    backprop_train_spec l rule input target hw
  exact ⟨l2, ret, h1, hcupd, hbupd, hcother⟩

/-- Witness for C3 at a concrete layer and a target shorter than the
output count. -/
theorem backprop_update_matches_spec_witness :
    wLayer.coeffs.length = wLayer.inputs * wLayer.biases.length ∧
    (∃ l2 ret,
      backprop_train wLayer { rate := 1/2 } [1, 2] [0] = some (l2, ret) ∧
      (∀ j < wLayer.output_size, ∀ i < min wLayer.inputs ([1, 2] : List ℚ).length,
        l2.coeffs.getD (i + j * wLayer.inputs) 0 =
          wLayer.coeffs.getD (i + j * wLayer.inputs) 0 -
          (1/2 : ℚ) * ([1, 2] : List ℚ).getD i 0 *
            wLayer.activation.derivative (preActivation wLayer [1, 2] j) *
            (wLayer.activation.value (preActivation wLayer [1, 2] j) -
              ([0] : List ℚ).getD j 0)) ∧
      (∀ j < wLayer.output_size, l2.biases.getD j 0 = wLayer.biases.getD j 0 -
        (1/2 : ℚ) * wLayer.activation.derivative (preActivation wLayer [1, 2] j) *
          (wLayer.activation.value (preActivation wLayer [1, 2] j) -
            ([0] : List ℚ).getD j 0)) ∧
      (∀ k, (∀ j < wLayer.output_size,
        ∀ i < min wLayer.inputs ([1, 2] : List ℚ).length,
        k ≠ i + j * wLayer.inputs) →
          l2.coeffs.getD k 0 = wLayer.coeffs.getD k 0)) :=
  ⟨rfl, backprop_update_matches_spec wLayer { rate := 1/2 } [1, 2] [0] rfl⟩

lemma supervised_train_act (l : FeedforwardLayer) (act2 : ActivationFunction)
    (hv : act2.value = l.activation.value) (rule : PerceptronRule)
    (input target : List ℚ) :
    supervised_train
      { inputs := l.inputs, coeffs := l.coeffs, biases := l.biases,
        activation := act2 } rule input target =
      Option.map (fun l2 =>
        { inputs := l2.inputs, coeffs := l2.coeffs, biases := l2.biases,
          activation := act2 }) (supervised_train l rule input target) := by
  obtain ⟨ins, cs, bs, act⟩ := l
  simp only at hv
  have hcomp : compute ⟨ins, cs, bs, act2⟩ input =
      compute ⟨ins, cs, bs, act⟩ input := by
    simp [compute, rawOutputs, hv]
  simp only [supervised_train, hcomp]
  cases hc : compute ⟨ins, cs, bs, act⟩ input with
  | none => rfl
  | some out =>
    simp only [Option.bind_eq_bind, Option.some_bind]
    cases hf : (List.range bs.length).foldl
        (trainPStep rule.rate input target out ins) (some (cs, bs)) with
    | none => rfl
    | some p => rfl

/-- C4: Delta-rule training (`supervised_train` with `PerceptronRule`)
first computes `out = compute input` with the activation applied and the
pre-update weights, then for every output `j` uses
`diff = out[j] - target[j]` (zero substituted for missing target
components), updates `weights[j*input_size+i]` to
`weights[j*input_size+i] - rate * diff * input[i]` for
`i in 0..min(input_size, input.length)`, updates `biases[j]` to
`biases[j] - rate * diff`, leaves all other weights unchanged, and the
activation derivative is never used (replacing the derivative while
keeping the value function yields the same weights and biases). -/
theorem perceptron_update_matches_spec (l : FeedforwardLayer)
    (rule : PerceptronRule) (input target : List ℚ)
    (hw : l.coeffs.length = l.inputs * l.biases.length) :
    ∃ out l2, compute l input = some out ∧
      supervised_train l rule input target = some l2 ∧
      (∀ j < l.output_size, ∀ i < min l.inputs input.length,
        l2.coeffs.getD (j * l.inputs + i) 0 =
          l.coeffs.getD (j * l.inputs + i) 0 -
          rule.rate * (out.getD j 0 - target.getD j 0) * input.getD i 0) ∧
      (∀ j < l.output_size, l2.biases.getD j 0 = l.biases.getD j 0 -
        rule.rate * (out.getD j 0 - target.getD j 0)) ∧
      (∀ k, (∀ j < l.output_size, ∀ i < min l.inputs input.length,
        k ≠ j * l.inputs + i) → l2.coeffs.getD k 0 = l.coeffs.getD k 0) ∧
      (∀ act2 : ActivationFunction, act2.value = l.activation.value →
        supervised_train
          { inputs := l.inputs, coeffs := l.coeffs, biases := l.biases,
            activation := act2 } rule input target =
          some { inputs := l2.inputs, coeffs := l2.coeffs,
                 biases := l2.biases, activation := act2 }) := by
  obtain ⟨out, l2, hcomp, htrain, _, _, _, _, hcupd, hcother, hbupd, _⟩ :=
    supervised_train_spec l rule input target hw
  refine ⟨out, l2, hcomp, htrain, ?_, ?_, ?_, ?_⟩
  · intro j hj i hi
    have h1 : j * l.inputs + i = i + j * l.inputs := Nat.add_comm ..
    rw [h1]
    exact hcupd j hj i hi
  · exact hbupd
  · intro k hk
    refine hcother k (fun j hj i hi h => ?_)
    exact hk j hj i hi (h.trans (Nat.add_comm ..))
  · intro act2 hv
    rw [supervised_train_act l act2 hv rule input target, htrain]
    rfl

/-- Witness for C4 at a concrete layer; the replaced derivative in the
final conjunct is instantiated inside the theorem application. -/
theorem perceptron_update_matches_spec_witness :
    wLayer.coeffs.length = wLayer.inputs * wLayer.biases.length ∧
    (∃ out l2, compute wLayer [1, 2] = some out ∧
      supervised_train wLayer { rate := 1/2 } [1, 2] [0] = some l2 ∧
      (∀ j < wLayer.output_size,
        ∀ i < min wLayer.inputs ([1, 2] : List ℚ).length,
        l2.coeffs.getD (j * wLayer.inputs + i) 0 =
          wLayer.coeffs.getD (j * wLayer.inputs + i) 0 -
          (1/2 : ℚ) * (out.getD j 0 - ([0] : List ℚ).getD j 0) *
            ([1, 2] : List ℚ).getD i 0) ∧
      (∀ j < wLayer.output_size, l2.biases.getD j 0 =
        wLayer.biases.getD j 0 -
        (1/2 : ℚ) * (out.getD j 0 - ([0] : List ℚ).getD j 0)) ∧
      (∀ k, (∀ j < wLayer.output_size,
        ∀ i < min wLayer.inputs ([1, 2] : List ℚ).length,
        k ≠ j * wLayer.inputs + i) →
          l2.coeffs.getD k 0 = wLayer.coeffs.getD k 0) ∧
      (∀ act2 : ActivationFunction, act2.value = wLayer.activation.value →
        supervised_train
          { inputs := wLayer.inputs, coeffs := wLayer.coeffs,
            biases := wLayer.biases, activation := act2 }
          { rate := 1/2 } [1, 2] [0] =
          some { inputs := l2.inputs, coeffs := l2.coeffs,
                 biases := l2.biases, activation := act2 })) :=
  ⟨rfl, perceptron_update_matches_spec wLayer { rate := 1/2 } [1, 2] [0] rfl⟩

/-- C5: The invariants `weights.length == input_size * output_size` and
`biases.length == output_size` are established by the zero-initializing,
single-generator, and dual-generator constructors, and are preserved by
every call of delta-rule training and of `backprop_train`: starting from
an invariant-satisfying layer, these operations never change
`input_size`, `weights.length`, or `biases.length`, so the invariants
still hold afterwards. -/
theorem length_invariants_established_and_preserved :
    (∀ ins outs act, (FeedforwardLayer.new ins outs act).coeffs.length = ins * outs ∧
      (FeedforwardLayer.new ins outs act).biases.length = outs) ∧
    (∀ ins outs act g,
      (FeedforwardLayer.new_from ins outs act g).coeffs.length = ins * outs ∧
      (FeedforwardLayer.new_from ins outs act g).biases.length = outs) ∧
    (∀ ins outs act wg bg,
      (FeedforwardLayer.new_from_generators ins outs act wg bg).coeffs.length = ins * outs ∧
      (FeedforwardLayer.new_from_generators ins outs act wg bg).biases.length = outs) ∧
    (∀ l rule input target l2, l.coeffs.length = l.inputs * l.biases.length →
      supervised_train l rule input target = some l2 →
      l2.inputs = l.inputs ∧ l2.coeffs.length = l.coeffs.length ∧
        l2.biases.length = l.biases.length ∧
        l2.coeffs.length = l2.inputs * l2.biases.length) ∧
    (∀ l rule input target l2 ret, l.coeffs.length = l.inputs * l.biases.length →
      backprop_train l rule input target = some (l2, ret) →
      l2.inputs = l.inputs ∧ l2.coeffs.length = l.coeffs.length ∧
        l2.biases.length = l.biases.length ∧
        l2.coeffs.length = l2.inputs * l2.biases.length) := by
  refine ⟨?_, ?_, ?_, ?_, ?_⟩
  · intro ins outs act
    simp [FeedforwardLayer.new]
  · intro ins outs act g
    simp [FeedforwardLayer.new_from]
  · intro ins outs act wg bg
    simp [FeedforwardLayer.new_from_generators]
  · intro l rule input target l2 hw h
    obtain ⟨out, l2x, _, htrain, hins, _, hclen, hblen, _⟩ :=
      supervised_train_spec l rule input target hw
    have hx : l2x = l2 := Option.some.inj (htrain.symm.trans h)
    subst hx
    refine ⟨hins, hclen, hblen, ?_⟩
    rw [hclen, hins, hblen, hw]
  · intro l rule input target l2 ret hw h
    obtain ⟨l2x, retx, htrain, hins, _, hclen, hblen, _⟩ :=
      backprop_train_spec l rule input target hw
    have hx : l2x = l2 ∧ retx = ret := by
      have := Option.some.inj (htrain.symm.trans h)
      exact ⟨congrArg Prod.fst this, congrArg Prod.snd this⟩
    obtain ⟨hx1, hx2⟩ := hx
    subst hx1
    refine ⟨hins, hclen, hblen, ?_⟩
    rw [hclen, hins, hblen, hw]

/-- Witness for C5: a constructed layer satisfies the invariants, and a
concrete training call preserves them. -/
theorem length_invariants_witness :
    (FeedforwardLayer.new 3 2 idAct).coeffs.length = 3 * 2 ∧
    (FeedforwardLayer.new 3 2 idAct).biases.length = 2 ∧
    ∃ l2, supervised_train wLayer { rate := 1/2 } [1, 2] [0] = some l2 ∧
      l2.inputs = wLayer.inputs ∧ l2.coeffs.length = wLayer.coeffs.length ∧
      l2.biases.length = wLayer.biases.length := by
  obtain ⟨hnew, _, _, hpres, _⟩ := length_invariants_established_and_preserved
  have htrain : supervised_train wLayer { rate := 1/2 } [1, 2] [0] =
      some { inputs := 2, coeffs := [-4, -8, -11/2, -13],
             biases := [0, -5/2], activation := idAct } := by
    with_unfolding_all rfl
  obtain ⟨h1, h2, h3, _⟩ := hpres wLayer { rate := 1/2 } [1, 2] [0] _ rfl htrain
  exact ⟨(hnew 3 2 idAct).1, (hnew 3 2 idAct).2, _, htrain, h1, h2, h3⟩

/-- C6: Under the length invariants, `compute`, delta-rule
`supervised_train`, and `backprop_train` never fail for any input and
target sequences of any lengths: every sequence access they perform is
in range (mismatched lengths are tolerated by truncation or
zero-substitution), so none of them returns the `none` that models an
out-of-range panic. -/
theorem operations_total_under_invariants (l : FeedforwardLayer)
    (hw : l.coeffs.length = l.inputs * l.biases.length)
    (input target : List ℚ) (prule : PerceptronRule) (grule : GradientDescent) :
    (compute l input).isSome ∧ (supervised_train l prule input target).isSome ∧
      (backprop_train l grule input target).isSome := by
  obtain ⟨out, h1, _⟩ := compute_spec l input hw
  obtain ⟨out2, l2, _, h2, _⟩ := supervised_train_spec l prule input target hw
  obtain ⟨l3, ret, h3, _⟩ := backprop_train_spec l grule input target hw
  exact ⟨by simp [h1], by simp [h2], by simp [h3]⟩

/-- Witness for C6 at a concrete layer, with an input shorter than
`input_size` and a target shorter than `output_size`. -/
theorem operations_total_witness :
    wLayer.coeffs.length = wLayer.inputs * wLayer.biases.length ∧
    ((compute wLayer [1]).isSome ∧
      (supervised_train wLayer { rate := 1/2 } [1] [0]).isSome ∧
      (backprop_train wLayer { rate := 1/2 } [1] [0]).isSome) :=
  ⟨rfl, operations_total_under_invariants wLayer rfl [1] [0]
    { rate := 1/2 } { rate := 1/2 }⟩

/-- C7: Invoking gradient-descent training through the supervised
training contract (`supervised_train` with `GradientDescent`) leaves the
layer in exactly the state produced by `backprop_train` with the same
arguments; the only difference is that the returned error vector is
discarded. -/
theorem gd_supervised_refines_backprop (l : FeedforwardLayer)
    (rule : GradientDescent) (input target : List ℚ) :
    supervised_train_gd l rule input target =
      Option.map Prod.fst (backprop_train l rule input target) := by
  simp only [supervised_train_gd]
  cases h : backprop_train l rule input target with
  | none => rfl
  | some q => rfl

/-- C8: Starting from the zero-initialized 4-input/2-output layer with
the step activation, applying delta-rule training 3 times to the
alternating pair of examples (`[1,1,1,1] → [0,0]`, then
`[1,-1,1,-1] → [1,1]`) with rate `1/2` yields a layer for which
`compute [1,1,1,1] = [0,0]` and `compute [1,-1,1,-1] = [1,1]`
exactly. -/
theorem perceptron_rule_test_converges :
    ∃ l, c8Final = some l ∧ compute l [1, 1, 1, 1] = some [0, 0] ∧
      compute l [1, -1, 1, -1] = some [1, 1] :=
  ⟨{ inputs := 4, coeffs := [0, -1, 0, -1, 0, -1, 0, -1], biases := [0, 0],
     activation := stepAct },
   by with_unfolding_all rfl, by with_unfolding_all rfl,
   by with_unfolding_all rfl⟩

/-- C9: `compute` is deterministic and side-effect free.  In this
embedding `compute` takes the layer by value and returns only the
output, mirroring the `&self` receiver of the source, so it cannot
mutate the layer; this theorem states the remaining content: the result
is a pure function of the four fields of the layer and of the input, so
two calls on layers with identical state and identical inputs return
identical outputs. -/
theorem compute_deterministic_pure (l1 l2 : FeedforwardLayer)
    (input1 input2 : List ℚ)
    (h1 : l1.inputs = l2.inputs) (h2 : l1.coeffs = l2.coeffs)
    (h3 : l1.biases = l2.biases) (h4 : l1.activation = l2.activation)
    (h5 : input1 = input2) :
    compute l1 input1 = compute l2 input2 := by
  obtain ⟨i1, c1, b1, a1⟩ := l1
  obtain ⟨i2, c2, b2, a2⟩ := l2
  simp only at h1 h2 h3 h4
  subst h1
  subst h2
  subst h3
  subst h4
  subst h5
  rfl

/-- Witness for C9: two layers built through different constructors but
with equal state give identical `compute` results. -/
theorem compute_deterministic_pure_witness :
    ((FeedforwardLayer.new 2 1 idAct).inputs =
      (FeedforwardLayer.new_from_values 2 1 idAct [0, 0] [0]).inputs ∧
     (FeedforwardLayer.new 2 1 idAct).coeffs =
      (FeedforwardLayer.new_from_values 2 1 idAct [0, 0] [0]).coeffs ∧
     (FeedforwardLayer.new 2 1 idAct).biases =
      (FeedforwardLayer.new_from_values 2 1 idAct [0, 0] [0]).biases) ∧
    compute (FeedforwardLayer.new 2 1 idAct) [1, 2] =
      compute (FeedforwardLayer.new_from_values 2 1 idAct [0, 0] [0]) [1, 2] :=
  ⟨⟨rfl, by with_unfolding_all rfl, by with_unfolding_all rfl⟩,
   compute_deterministic_pure _ _ _ _ rfl (by with_unfolding_all rfl)
     (by with_unfolding_all rfl) rfl rfl⟩

lemma list_eq_of_getD (l1 l2 : List ℚ) (hlen : l1.length = l2.length)
    (h : ∀ k, l1.getD k 0 = l2.getD k 0) : l1 = l2 := by
  refine List.ext_getElem? (fun i => ?_)
  rcases Nat.lt_or_ge i l1.length with hi | hi
  · have hi2 : i < l2.length := hlen ▸ hi
    rw [List.getElem?_eq_getElem hi, List.getElem?_eq_getElem hi2]
    have hh := h i
    rw [List.getD_eq_getElem l1 0 hi, List.getD_eq_getElem l2 0 hi2] at hh
    exact congrArg some hh
  · rw [List.getElem?_eq_none hi, List.getElem?_eq_none (hlen ▸ hi)]

lemma layer_ext (a b : FeedforwardLayer) (h1 : a.inputs = b.inputs)
    (h2 : a.coeffs = b.coeffs) (h3 : a.biases = b.biases)
    (h4 : a.activation = b.activation) : a = b := by
  obtain ⟨i1, c1, b1, a1⟩ := a
  obtain ⟨i2, c2, b2, a2⟩ := b
  simp only at h1 h2 h3 h4
  subst h1
  subst h2
  subst h3
  subst h4
  rfl

/-- C10: Delta-rule training has the current output as a fixed point:
for every invariant-satisfying layer, if for every output `j` the
target component `target[j]` (zero when missing) equals
`compute(input)[j]` exactly, then `supervised_train` with
`PerceptronRule` leaves every weight and every bias unchanged. -/
theorem perceptron_fixed_point (l : FeedforwardLayer)
    (rule : PerceptronRule) (input target : List ℚ)
    (hw : l.coeffs.length = l.inputs * l.biases.length)
    (out : List ℚ) (hcomp : compute l input = some out)
    (htar : ∀ j < l.output_size, target.getD j 0 = out.getD j 0) :
    supervised_train l rule input target = some l := by
  obtain ⟨out2, l2, hcomp2, htrain, hins, hact, hclen, hblen, hcupd,
    hcother, hbupd, hbother⟩ := supervised_train_spec l rule input target hw
  have hout : out2 = out := Option.some.inj (hcomp2.symm.trans hcomp)
  subst hout
  have hdiff : ∀ j < l.biases.length,
      out2.getD j 0 - target.getD j 0 = 0 := by
    intro j hj
    rw [htar j hj]
    ring
  have hcs : l2.coeffs = l.coeffs := by
    refine list_eq_of_getD _ _ hclen (fun k => ?_)
    by_cases hk : ∃ j, j < l.biases.length ∧
      ∃ i, i < min l.inputs input.length ∧ k = i + j * l.inputs
    · obtain ⟨j, hj, i, hi, rfl⟩ := hk
      rw [hcupd j hj i hi, hdiff j hj]
      ring
    · push_neg at hk
      exact hcother k (fun j hj i hi h => hk j hj i hi h)
  have hbs : l2.biases = l.biases := by
    refine list_eq_of_getD _ _ hblen (fun j => ?_)
    by_cases hj : j < l.biases.length
    · rw [hbupd j hj, hdiff j hj]
      ring
    · exact hbother j (Nat.le_of_not_lt hj)
  rw [htrain, layer_ext l2 l hins hcs hbs hact]

/-- Witness for C10: a zero layer whose output already equals the
target is left exactly unchanged by delta-rule training. -/
theorem perceptron_fixed_point_witness :
    (FeedforwardLayer.new 1 1 idAct).coeffs.length =
      (FeedforwardLayer.new 1 1 idAct).inputs *
        (FeedforwardLayer.new 1 1 idAct).biases.length ∧
    compute (FeedforwardLayer.new 1 1 idAct) [5] = some [0] ∧
    supervised_train (FeedforwardLayer.new 1 1 idAct) { rate := 1/2 }
      [5] [0] = some (FeedforwardLayer.new 1 1 idAct) :=
  ⟨rfl, by with_unfolding_all rfl,
   perceptron_fixed_point (FeedforwardLayer.new 1 1 idAct) { rate := 1/2 }
     [5] [0] rfl [0] (by with_unfolding_all rfl) (fun j hj => rfl)⟩

end Silinapse
